import Mathlib

/-!
Verification of a Chudnovsky-series π calculator.

This file gives a shallow embedding of the numerically relevant parts of
the program (`compute_pi_terms`, the range partitioning in `main`, the
merge fold in `main`, `high_precision_sqrt`, `high_precision_division`,
and the rounding step in `main`) and proves or refutes the specified
properties about them.

Modelling conventions:
- Python arbitrary-precision integers are `ℤ` (or `ℕ` where the value is
  manifestly non-negative in the source: factorial-family quantities,
  fuel counters, indices).
- Python `//` and `%` are floor division and floor modulus, i.e.
  `Int.fdiv` / `Int.fmod` (on `ℕ` they coincide with `/` and `%`).
- Python `while` loops are modelled with an explicit fuel parameter;
  a run that exhausts its fuel is distinguished from a completed run.
  Python's `ZeroDivisionError` on `// 0` is modelled as an explicit
  error value.
- Python digit strings are modelled as lists of digit values.
-/

/-! ## SeriesTermAccumulator: `compute_pi_terms` (src/main.py lines 22-85) -/

/-- The constant `C = 640320**3` from `compute_pi_terms`. -/
def Cchud : ℕ := 640320 ^ 3

/-- The local variables of the `compute_pi_terms` loop: the incrementally
maintained factorial-family quantities and the running total fraction. -/
structure ChudState where
  fact_6k : ℕ
  fact_3k : ℕ
  fact_k_cubed : ℕ
  C_power : ℕ
  linear_term : ℕ
  total_num : ℤ
  total_den : ℤ
  deriving Repr, DecidableEq

/-- Initialisation of the loop variables of `compute_pi_terms`: closed-form
base values for `start = 0`, from-scratch factorials otherwise, and running
total `0/1`. -/
def initState (start : ℕ) : ChudState :=
  if start = 0 then
    { fact_6k := 1, fact_3k := 1, fact_k_cubed := 1, C_power := 1,
      linear_term := 13591409, total_num := 0, total_den := 1 }
  else
    { fact_6k := (6 * start).factorial, fact_3k := (3 * start).factorial,
      fact_k_cubed := start.factorial ^ 3, C_power := Cchud ^ start,
      linear_term := 545140134 * start + 13591409, total_num := 0, total_den := 1 }

/-- The incremental update of the recurrence quantities performed at the top
of the loop body for an index `k` with `k > start`: the two inner `for`
loops multiplying in `(6k-5)..(6k)` and `(3k-2)..(3k)`, the `k^3` factor,
the extra factor `C`, and the linear-term increment. -/
def updateState (k : ℕ) (s : ChudState) : ChudState :=
  { s with
    fact_6k := (List.range' (6 * k - 5) 6).foldl (· * ·) s.fact_6k,
    fact_3k := (List.range' (3 * k - 2) 3).foldl (· * ·) s.fact_3k,
    fact_k_cubed := s.fact_k_cubed * k ^ 3,
    C_power := s.C_power * Cchud,
    linear_term := s.linear_term + 545140134 }

/-- The accumulation part of the loop body of `compute_pi_terms`: build the
current term's numerator and denominator from the recurrence quantities and
add it to the running total with the fraction-addition-then-gcd-reduce rule. -/
def accumulate (k : ℕ) (s : ChudState) : ChudState :=
  let sign : ℤ := if k % 2 = 0 then 1 else -1
  let numerator : ℤ := sign * s.fact_6k * s.linear_term
  let denominator : ℤ := (s.fact_3k : ℤ) * (s.fact_k_cubed : ℤ) * (s.C_power : ℤ)
  if numerator ≠ 0 then
    let new_num := s.total_num * denominator + numerator * s.total_den
    let new_den := s.total_den * denominator
    let gcd_val : ℕ := Int.gcd new_num new_den
    if 1 < gcd_val then
      { s with total_num := new_num.fdiv gcd_val, total_den := new_den.fdiv gcd_val }
    else
      { s with total_num := new_num, total_den := new_den }
  else s

/-- The `for k in range(start, end + 1)` loop of `compute_pi_terms`: each
iteration first performs the incremental update when `k > start`, then
accumulates the term at `k`. -/
def piLoop (start : ℕ) : List ℕ → ChudState → ChudState
  | [], s => s
  | k :: ks, s =>
    let s1 := if start < k then updateState k s else s
    piLoop start ks (accumulate k s1)

/-- The function `compute_pi_terms(start, end)` of src/main.py: runs the
loop over `range(start, end + 1)` and returns the running total as a
numerator/denominator pair. -/
def compute_pi_terms (start endIdx : ℕ) : ℤ × ℤ :=
  let s := piLoop start (List.range' start (endIdx + 1 - start)) (initState start)
  (s.total_num, s.total_den)

/-- The exact value of the `k`-th Chudnovsky series term, as stated in the
specification:
`term(k) = (-1)^k · (6k)! · (545140134k + 13591409) / ((3k)! · (k!)^3 · (640320^3)^k)`. -/
def chudTerm (k : ℕ) : ℚ :=
  (-1 : ℚ) ^ k * (6 * k).factorial * (545140134 * k + 13591409) /
    ((3 * k).factorial * ((k.factorial : ℚ)) ^ 3 * ((640320 : ℚ) ^ 3) ^ k)

/-! ## PartitionMerger: range generation and merge fold (src/main.py lines 230-261) -/

/-- The chunk size `(total_terms + num_cores - 1) // num_cores` from `main`. -/
def chunk_size (total_terms num_cores : ℕ) : ℕ :=
  (total_terms + num_cores - 1) / num_cores

/-- The `i`-th generated range `(i*chunk_size, min((i+1)*chunk_size - 1, total_terms))`
from `main`. -/
def chunkRange (T W i : ℕ) : ℕ × ℕ :=
  (i * chunk_size T W, min ((i + 1) * chunk_size T W - 1) T)

/-- The list of ranges produced by the list comprehension in `main`. -/
def chunkRanges (T W : ℕ) : List (ℕ × ℕ) :=
  (List.range W).map (chunkRange T W)

/-- One step of the merge loop in `main`: exact fraction addition
`a/b + c/d = (a*d + b*c)/(b*d)` followed by reduction by
`math.gcd(abs(new_num), new_den)` when that gcd exceeds 1. -/
def mergeStep (S r : ℤ × ℤ) : ℤ × ℤ :=
  let new_num := S.1 * r.2 + r.1 * S.2
  let new_den := S.2 * r.2
  let gcd_val : ℕ := Int.gcd new_num new_den
  if 1 < gcd_val then (new_num.fdiv gcd_val, new_den.fdiv gcd_val)
  else (new_num, new_den)

/-- The merge fold of `main`: start from `results[0]` and merge each further
chunk result in order.  An empty result list is an error (`results[0]`
raises `IndexError`), modelled as `none`. -/
def mergeFold : List (ℤ × ℤ) → Option (ℤ × ℤ)
  | [] => none
  | r :: rs => some (rs.foldl mergeStep r)

/-- The exact rational value of a numerator/denominator pair. -/
def pairVal (p : ℤ × ℤ) : ℚ := (p.1 : ℚ) / (p.2 : ℚ)

/-! ## HighPrecisionSqrt: `high_precision_sqrt` (src/main.py lines 87-112) -/

/-- Result of running a fuelled loop: normal completion, a Python
`ZeroDivisionError`, or fuel exhaustion (the loop would keep running). -/
inductive LoopRes where
  | ok : ℕ → LoopRes
  | divZero : LoopRes
  | fuelOut : LoopRes
  deriving Repr, DecidableEq

/-- The first (unscaled) Newton loop of `high_precision_sqrt`:
`while True: y = (x + n // x) // 2; if y >= x: break; x = y`.
Division by zero is surfaced as `divZero`. -/
def newtonLoop1 (n : ℕ) : ℕ → ℕ → LoopRes
  | 0, _ => .fuelOut
  | fuel + 1, x =>
    if x = 0 then .divZero
    else
      let y := (x + n / x) / 2
      if x ≤ y then .ok x else newtonLoop1 n fuel y

/-- The second (scaled) Newton loop of `high_precision_sqrt`:
`prev_x = -1; while x != prev_x: prev_x = x; x = (x + scaled_n // x) // 2`,
which returns `x` exactly when `x` is a fixed point of one iteration. -/
def newtonLoop2 (n : ℕ) : ℕ → ℕ → LoopRes
  | 0, _ => .fuelOut
  | fuel + 1, x =>
    if x = 0 then .divZero
    else
      let y := (x + n / x) / 2
      if y = x then .ok x else newtonLoop2 n fuel y

/-- The initial guess used by both loops: `x = n // 2; if x == 0: x = 1`. -/
def sqrtInit (n : ℕ) : ℕ :=
  if n / 2 = 0 then 1 else n / 2

/-- The function `high_precision_sqrt(n, precision)` of src/main.py: the
unscaled pre-pass loop (whose value is discarded), then the scaled loop on
`scaled_n = n * 10**(2*precision)`.  Errors of the first loop propagate. -/
def high_precision_sqrt (n precision fuel1 fuel2 : ℕ) : LoopRes :=
  match newtonLoop1 n fuel1 (sqrtInit n) with
  | .ok _ =>
    let scaled_n := n * 10 ^ (2 * precision)
    newtonLoop2 scaled_n fuel2 (sqrtInit scaled_n)
  | r => r

/-! ## HighPrecisionDivider: `high_precision_division` (src/main.py lines 114-134) -/

/-- The digit-producing loop of `high_precision_division`: up to `fuel`
iterations of `if remainder == 0: break; remainder *= 10;
digit = remainder // denominator; append(digit); remainder %= denominator`,
appending produced digits to `acc`. -/
def divLoop (den : ℤ) : ℕ → ℤ → List ℤ → List ℤ
  | 0, _, acc => acc
  | fuel + 1, r, acc =>
    if r = 0 then acc
    else divLoop den fuel (Int.fmod (10 * r) den) (acc ++ [Int.fdiv (10 * r) den])

/-- The function `high_precision_division(numerator, denominator, digits)`
of src/main.py: long division producing `digits + 10` fractional digits
(stopping early on zero remainder), then right-padding with `0` while the
list is shorter than `digits + 1`. -/
def high_precision_division (numerator denominator : ℤ) (digits : ℕ) : List ℤ :=
  let remainder := Int.fmod numerator denominator
  let ds := divLoop denominator (digits + 10) remainder []
  ds ++ List.replicate (digits + 1 - ds.length) 0

/-- The remainder sequence of the long division described in the
specification: `r_0` is the initial remainder and `r_{j+1} = (10*r_j) mod den`. -/
def remSeq (den r : ℤ) : ℕ → ℤ
  | 0 => r
  | j + 1 => Int.fmod (10 * remSeq den r j) den

/-- The `j`-th decimal digit after the integer part as described in the
specification: `digit_j = (10 * r_j) div den`. -/
def longDivisionDigit (den r : ℤ) (j : ℕ) : ℤ :=
  Int.fdiv (10 * remSeq den r j) den

/-! ## Rounding step of `main` (src/main.py lines 279-289) -/

/-- Parsing a digit list as a natural number, as `int(pi_decimal)` does on
a string of decimal digits. -/
def int_of_digits (l : List ℕ) : ℕ :=
  l.foldl (fun a d => 10 * a + d) 0

/-- Little-endian decimal digits of `n`, computed with explicit fuel
(`fuel ≥ n` is always enough). -/
def natDigitsAux : ℕ → ℕ → List ℕ
  | 0, _ => []
  | _ + 1, 0 => []
  | fuel + 1, n + 1 => ((n + 1) % 10) :: natDigitsAux fuel ((n + 1) / 10)

/-- The decimal rendering `str(n)` of a natural number, as a digit list. -/
def str_of_nat (n : ℕ) : List ℕ :=
  if n = 0 then [0] else (natDigitsAux n n).reverse

/-- Python's `zfill`: left-pad a digit list with zeros to the given width. -/
def zfill (l : List ℕ) (width : ℕ) : List ℕ :=
  List.replicate (width - l.length) 0 ++ l

/-- The rounding step of `main`: take the first `d` digits, inspect digit
`d+1` (taken as 0 when absent); if it is ≥ 5, increment the parsed numeral,
re-render zero-filled to width `d`, and drop the leading digit if the
result got longer than `d`. -/
def round_step (ds : List ℕ) (d : ℕ) : List ℕ :=
  let pi_decimal := ds.take d
  let round_digit := ds.getD d 0
  if 5 ≤ round_digit then
    let num_val := int_of_digits pi_decimal + 1
    let s := zfill (str_of_nat num_val) d
    if d < s.length then s.tail else s
  else pi_decimal

/-! ## Helper lemmas -/

/-- The scaled Newton fixed-point loop on `scaled_n = 3` oscillates between
`1` and `2` forever: it exhausts any amount of fuel. -/
lemma newtonLoop2_three_diverges :
    ∀ fuel, newtonLoop2 3 fuel 1 = .fuelOut ∧ newtonLoop2 3 fuel 2 = .fuelOut := by
  intro fuel
  induction fuel with
  | zero => exact ⟨rfl, rfl⟩
  | succ f ih =>
    refine ⟨?_, ?_⟩
    · show newtonLoop2 3 (f + 1) 1 = .fuelOut
      simpa [newtonLoop2] using ih.2
    · show newtonLoop2 3 (f + 1) 2 = .fuelOut
      simpa [newtonLoop2] using ih.1

/-- Divergence of the whole `high_precision_sqrt` call: for every amount of
fuel for each of the two loops, the run is cut off by fuel exhaustion (so the
function, which has no fuel bound, never returns). -/
def sqrtDiverges (n p : ℕ) : Prop :=
  ∀ fuel1 fuel2, high_precision_sqrt n p fuel1 fuel2 = .fuelOut

/-- Divergence of the scaled fixed-point iteration alone, started from the
initial guess the code uses. -/
def scaledIterDiverges (n p : ℕ) : Prop :=
  ∀ fuel, newtonLoop2 (n * 10 ^ (2 * p)) fuel (sqrtInit (n * 10 ^ (2 * p))) = .fuelOut

/-! ## C9: `compute_pi_terms` on an empty range -/

/-- C9 counterexample: on the zero-length range `start = 1, end = 0` the core
does not reject the input with an error: it returns the value `(0, 1)`. -/
theorem compute_pi_terms_empty_returns_value : compute_pi_terms 1 0 = (0, 1) := rfl

/-- C9 (amended): for every zero-length `TermRange` (`end < start`),
`compute_pi_terms` performs no accumulation step and returns the empty-sum
pair `(0, 1)` rather than rejecting the input. -/
theorem compute_pi_terms_empty_range (s e : ℕ) (h : e < s) :
    compute_pi_terms s e = (0, 1) := by
  unfold compute_pi_terms
  have h0 : e + 1 - s = 0 := by omega
  rw [h0]
  show ((initState s).total_num, (initState s).total_den) = (0, 1)
  unfold initState
  split <;> rfl

/-- C9 witness: the amended statement at the concrete input `start = 2, end = 0`. -/
theorem compute_pi_terms_empty_range_witness :
    (0 : ℕ) < 2 ∧ compute_pi_terms 2 0 = (0, 1) :=
  ⟨by decide, compute_pi_terms_empty_range 2 0 (by decide)⟩

/-! ## C8: `high_precision_sqrt` at `n = 0` -/

/-- C8: contrary to the specified edge case `n = 0 → 0`, the code divides by
zero on input `n = 0`: the first Newton loop moves from the initial guess `1`
to `0` and then evaluates `0 // 0`, raising `ZeroDivisionError` (for every
precision, and independent of fuel once at least two iterations are allowed). -/
theorem high_precision_sqrt_zero_div_zero (p fuel1 fuel2 : ℕ) (h : 2 ≤ fuel1) :
    high_precision_sqrt 0 p fuel1 fuel2 = .divZero := by
  obtain ⟨f, rfl⟩ : ∃ f, fuel1 = f + 2 := ⟨fuel1 - 2, by omega⟩
  unfold high_precision_sqrt sqrtInit
  norm_num [newtonLoop1]

/-- C8 witness: the divide-by-zero result at the concrete input
`n = 0, precision = 0` with fuel `2`. -/
theorem high_precision_sqrt_zero_div_zero_witness :
    (2 : ℕ) ≤ 2 ∧ high_precision_sqrt 0 0 2 0 = .divZero :=
  ⟨by decide, high_precision_sqrt_zero_div_zero 0 2 0 (by decide)⟩

/-! ## C2: the generated ranges -/

/-- C2 counterexample: for `T = 2, W = 2` (so `W ≤ T`), the union of the
generated ranges is `{0, 1}`, not `[0, T] = {0, 1, 2}` — the index `T` is
not covered; and for `T = 9, W = 7` the seventh range is `(12, 9)`, which
is empty (its start exceeds its end). -/
theorem chunkRanges_counterexample :
    (Finset.range 2).biUnion
        (fun i => Finset.Icc (chunkRange 2 2 i).1 (chunkRange 2 2 i).2) ≠
      Finset.Icc 0 2 ∧
    (chunkRange 9 7 6).2 < (chunkRange 9 7 6).1 := by decide

/-- C2 (amended): for `T ≥ 1` and `1 ≤ W ≤ T` the generated ranges are
pairwise non-overlapping and their union is exactly the initial segment
`[0, min(W*chunk_size - 1, T)]` (which is `[0, T]` when `W*chunk_size > T`,
e.g. whenever `W` does not divide `T`, and `[0, T-1]` when `W` divides `T`);
ranges whose start exceeds `min((i+1)*chunk_size - 1, T)` are empty. -/
theorem chunkRanges_cover (T W : ℕ) (hT : 1 ≤ T) (hW : 1 ≤ W) (_hWT : W ≤ T) :
    (∀ i j, i < W → j < W → i ≠ j →
      Disjoint (Finset.Icc (chunkRange T W i).1 (chunkRange T W i).2)
        (Finset.Icc (chunkRange T W j).1 (chunkRange T W j).2)) ∧
    (Finset.range W).biUnion
        (fun i => Finset.Icc (chunkRange T W i).1 (chunkRange T W i).2) =
      Finset.Icc 0 (min (W * chunk_size T W - 1) T) := by
  have hW0 : 0 < W := hW
  have e1 : chunk_size T W = (T - 1) / W + 1 := by
    unfold chunk_size
    rw [show T + W - 1 = (T - 1) + W by omega, Nat.add_div_right _ hW0]
  have hc0 : 0 < chunk_size T W := by rw [e1]; exact Nat.succ_pos _
  constructor
  · intro i j hi hj hij
    rw [Finset.disjoint_left]
    intro x hx hx'
    rw [Finset.mem_Icc] at hx hx'
    simp only [chunkRange] at hx hx'
    rcases Nat.lt_or_ge i j with hlt | hge
    · have hm : (i + 1) * chunk_size T W ≤ j * chunk_size T W :=
        Nat.mul_le_mul_right _ (Nat.succ_le_of_lt hlt)
      have hpos : 0 < (i + 1) * chunk_size T W := Nat.mul_pos (Nat.succ_pos i) hc0
      have h2 : x ≤ (i + 1) * chunk_size T W - 1 := le_trans hx.2 (min_le_left _ _)
      have h3 : x < (i + 1) * chunk_size T W := lt_of_le_of_lt h2 (Nat.sub_lt hpos one_pos)
      exact absurd (lt_of_lt_of_le h3 (le_trans hm hx'.1)) (lt_irrefl x)
    · have hlt : j < i := lt_of_le_of_ne hge (Ne.symm hij)
      have hm : (j + 1) * chunk_size T W ≤ i * chunk_size T W :=
        Nat.mul_le_mul_right _ (Nat.succ_le_of_lt hlt)
      have hpos : 0 < (j + 1) * chunk_size T W := Nat.mul_pos (Nat.succ_pos j) hc0
      have h2 : x ≤ (j + 1) * chunk_size T W - 1 := le_trans hx'.2 (min_le_left _ _)
      have h3 : x < (j + 1) * chunk_size T W := lt_of_le_of_lt h2 (Nat.sub_lt hpos one_pos)
      exact absurd (lt_of_lt_of_le h3 (le_trans hm hx.1)) (lt_irrefl x)
  · ext x
    simp only [Finset.mem_biUnion, Finset.mem_Icc, Finset.mem_range, chunkRange,
      Nat.zero_le, true_and]
    constructor
    · rintro ⟨i, hi, h1, h2⟩
      have hm : (i + 1) * chunk_size T W ≤ W * chunk_size T W :=
        Nat.mul_le_mul_right _ (Nat.succ_le_of_lt hi)
      exact le_min (le_trans (le_trans h2 (min_le_left _ _)) (Nat.sub_le_sub_right hm 1))
        (le_trans h2 (min_le_right _ _))
    · intro hx
      have hx1 : x ≤ W * chunk_size T W - 1 := le_trans hx (min_le_left _ _)
      have hxT : x ≤ T := le_trans hx (min_le_right _ _)
      have hWc0 : 0 < W * chunk_size T W := Nat.mul_pos hW0 hc0
      have hxW : x < W * chunk_size T W := lt_of_le_of_lt hx1 (Nat.sub_lt hWc0 one_pos)
      refine ⟨x / chunk_size T W, ?_, ?_, ?_⟩
      · exact (Nat.div_lt_iff_lt_mul hc0).mpr hxW
      · exact Nat.div_mul_le_self x (chunk_size T W)
      · refine le_min (Nat.le_sub_one_of_lt ?_) hxT
        calc x = chunk_size T W * (x / chunk_size T W) + x % chunk_size T W :=
              (Nat.div_add_mod _ _).symm
          _ < chunk_size T W * (x / chunk_size T W) + chunk_size T W :=
              Nat.add_lt_add_left (Nat.mod_lt _ hc0) _
          _ = (x / chunk_size T W + 1) * chunk_size T W := by ring

/-- C2 witness: the amended statement at the concrete input `T = 3, W = 2`,
where the union is the whole of `[0, 3]`. -/
theorem chunkRanges_cover_witness :
    ((1 : ℕ) ≤ 3 ∧ (1 : ℕ) ≤ 2 ∧ (2 : ℕ) ≤ 3) ∧
    (Finset.range 2).biUnion
        (fun i => Finset.Icc (chunkRange 3 2 i).1 (chunkRange 3 2 i).2) =
      Finset.Icc 0 (min (2 * chunk_size 3 2 - 1) 3) :=
  ⟨by decide, (chunkRanges_cover 3 2 (by decide) (by decide) (by decide)).2⟩

/-! ## C3 and C7: divergence of the Newton iteration -/

/-- C3 counterexample: at `n = 3, precision = 0` (a positive `n`), the scaled
fixed-point loop oscillates between 1 and 2 forever, so `high_precision_sqrt`
never returns any value at all, let alone `floor(sqrt(3 * 10^0)) = 1`. -/
theorem high_precision_sqrt_diverges_at_3 : sqrtDiverges 3 0 := by
  intro f1 f2
  cases f1 with
  | zero => rfl
  | succ f =>
    have h1 : newtonLoop1 3 (f + 1) (sqrtInit 3) = .ok 1 := by
      norm_num [newtonLoop1, sqrtInit]
    unfold high_precision_sqrt
    rw [h1]
    show newtonLoop2 3 f2 1 = .fuelOut
    exact (newtonLoop2_three_diverges f2).1

/-- C7 counterexample: at `n = 3, precision = 0`, the scaled Newton iteration
`x ← (x + scaled_n // x) // 2` started from `x0 = scaled_n // 2 = 1` never
reaches a fixed point: it cycles `1 → 2 → 1 → ⋯` forever. -/
theorem newton_iteration_diverges_at_3 : scaledIterDiverges 3 0 := by
  intro fuel
  show newtonLoop2 3 fuel 1 = .fuelOut
  exact (newtonLoop2_three_diverges fuel).1

/-! ## C5: the rounding carry overflow is silently dropped -/

/-- C5: on the crafted expansion `"999995"` with `d = 5` the rounding step
does produce `"00000"`, but with no carry-out signal of any kind: its output
is exactly the same value the caller receives for the all-zero expansion
`"000000"`, so the carry into the integer part is silently dropped and the
returned digits are silently wrong (they stand for `.00000` although the
true rounded value is `1.00000`). -/
theorem round_step_silent_carry :
    round_step [9, 9, 9, 9, 9, 5] 5 = [0, 0, 0, 0, 0] ∧
    round_step [9, 9, 9, 9, 9, 5] 5 = round_step [0, 0, 0, 0, 0, 0] 5 := by decide

/-! ## C4: correctness of `high_precision_division` -/

/-- Accumulator-free form of the digit-producing loop of
`high_precision_division`. -/
def genDigits (den : ℤ) : ℕ → ℤ → List ℤ
  | 0, _ => []
  | fuel + 1, r =>
    if r = 0 then []
    else Int.fdiv (10 * r) den :: genDigits den fuel (Int.fmod (10 * r) den)

lemma divLoop_eq_append (den : ℤ) :
    ∀ (fuel : ℕ) (r : ℤ) (acc : List ℤ),
      divLoop den fuel r acc = acc ++ genDigits den fuel r := by
  intro fuel
  induction fuel with
  | zero => intro r acc; simp [divLoop, genDigits]
  | succ f ih =>
    intro r acc
    by_cases hr : r = 0
    · simp [divLoop, genDigits, hr]
    · simp [divLoop, genDigits, hr, ih]

lemma remSeq_shift (den r : ℤ) (j : ℕ) :
    remSeq den (Int.fmod (10 * r) den) j = remSeq den r (j + 1) := by
  induction j with
  | zero => rfl
  | succ i ih => simp only [remSeq, ih]

lemma genDigits_get (den : ℤ) :
    ∀ (fuel : ℕ) (r : ℤ) (j : ℕ) (h : j < (genDigits den fuel r).length),
      (genDigits den fuel r).get ⟨j, h⟩ = longDivisionDigit den r j := by
  intro fuel
  induction fuel with
  | zero => intro r j h; simp [genDigits] at h
  | succ f ih =>
    intro r j h
    by_cases hr : r = 0
    · simp [genDigits, hr] at h
    · cases j with
      | zero => simp [genDigits, hr, longDivisionDigit, remSeq]
      | succ i =>
        have hlen : i < (genDigits den f (Int.fmod (10 * r) den)).length := by
          simp [genDigits, hr] at h
          omega
        have hrec := ih (Int.fmod (10 * r) den) i hlen
        have hstep : (genDigits den (f + 1) r).get ⟨i + 1, h⟩ =
            (genDigits den f (Int.fmod (10 * r) den)).get ⟨i, hlen⟩ := by
          simp [genDigits, hr]
        rw [hstep, hrec]
        unfold longDivisionDigit
        rw [remSeq_shift]

lemma genDigits_stop (den : ℤ) :
    ∀ (fuel : ℕ) (r : ℤ), (genDigits den fuel r).length < fuel →
      remSeq den r (genDigits den fuel r).length = 0 := by
  intro fuel
  induction fuel with
  | zero => intro r h; exact absurd h (Nat.not_lt_zero _)
  | succ f ih =>
    intro r h
    by_cases hr : r = 0
    · simp [genDigits, hr, remSeq]
    · have hlen : (genDigits den (f + 1) r).length =
          (genDigits den f (Int.fmod (10 * r) den)).length + 1 := by
        simp [genDigits, hr]
      have hlt : (genDigits den f (Int.fmod (10 * r) den)).length < f := by omega
      have := ih (Int.fmod (10 * r) den) hlt
      rw [remSeq_shift] at this
      rw [hlen]
      exact this

lemma remSeq_zero_after (den r : ℤ) (j : ℕ) (hz : remSeq den r j = 0) :
    ∀ m, remSeq den r (j + m) = 0 := by
  intro m
  induction m with
  | zero => exact hz
  | succ i ih =>
    show remSeq den r (j + i + 1) = 0
    show Int.fmod (10 * remSeq den r (j + i)) den = 0
    rw [ih]
    simp

/-- C4: for every numerator, nonzero denominator and requested digit count
`d`, the digit list returned by `high_precision_division` has length at
least `d + 1` and its `j`-th entry is exactly the `j`-th long-division
digit of the fractional part (`digit = remainder div denominator`,
`remainder = remainder mod denominator` at each step, digits past a zero
remainder being the padded zeros, which coincide with the true expansion);
moreover `1/3` with `d = 10` starts with ten `3`s and `1/2` with `d = 5`
gives the terminating expansion `5` right-padded with zeros. -/
theorem high_precision_division_correct :
    (∀ (num den : ℤ) (d : ℕ), den ≠ 0 →
      d + 1 ≤ (high_precision_division num den d).length ∧
      ∀ (j : ℕ) (h : j < (high_precision_division num den d).length),
        (high_precision_division num den d).get ⟨j, h⟩ =
          longDivisionDigit den (Int.fmod num den) j) ∧
    (high_precision_division 1 3 10).take 10 = List.replicate 10 3 ∧
    high_precision_division 1 2 5 = [5, 0, 0, 0, 0, 0] := by
  refine ⟨?_, by decide, by decide⟩
  intro num den d _hden
  have hds : high_precision_division num den d =
      genDigits den (d + 10) (Int.fmod num den) ++
        List.replicate (d + 1 - (genDigits den (d + 10) (Int.fmod num den)).length) 0 := by
    show divLoop den (d + 10) (num.fmod den) [] ++
        List.replicate (d + 1 - (divLoop den (d + 10) (num.fmod den) []).length) 0 =
      genDigits den (d + 10) (num.fmod den) ++
        List.replicate (d + 1 - (genDigits den (d + 10) (num.fmod den)).length) 0
    rw [divLoop_eq_append den (d + 10) (num.fmod den) []]
    simp
  rw [hds]
  constructor
  · rw [List.length_append, List.length_replicate]
    omega
  · intro j h
    rw [List.get_eq_getElem]
    rcases Nat.lt_or_ge j (genDigits den (d + 10) (Int.fmod num den)).length with hj | hj
    · rw [List.getElem_append_left hj]
      rw [← List.get_eq_getElem (genDigits den (d + 10) (Int.fmod num den)) ⟨j, hj⟩]
      exact genDigits_get den (d + 10) (Int.fmod num den) j hj
    · rw [List.getElem_append_right hj, List.getElem_replicate]
      have hlenlt : (genDigits den (d + 10) (Int.fmod num den)).length < d + 10 := by
        rw [List.length_append, List.length_replicate] at h
        omega
      have hz := genDigits_stop den (d + 10) (Int.fmod num den) hlenlt
      obtain ⟨m, hm⟩ : ∃ m, j = (genDigits den (d + 10) (Int.fmod num den)).length + m :=
        ⟨j - (genDigits den (d + 10) (Int.fmod num den)).length, by omega⟩
      have hzj : remSeq den (Int.fmod num den) j = 0 := by
        rw [hm]; exact remSeq_zero_after den _ _ hz m
      unfold longDivisionDigit
      rw [hzj]
      simp

/-- C4 witness: the general part of the statement at the concrete input
`numerator = 22, denominator = 7, d = 3`. -/
theorem high_precision_division_correct_witness :
    (7 : ℤ) ≠ 0 ∧ 3 + 1 ≤ (high_precision_division 22 7 3).length :=
  ⟨by decide, (high_precision_division_correct.1 22 7 3 (by decide)).1⟩

/-! ## C6 and C10: the merge fold -/

/-- A reduced pair with positive denominator is the canonical form of its
value: its components are the `num` and `den` of the rational it denotes. -/
lemma canon_pair_num_den (a b : ℤ) (hb : 0 < b) (hcop : Int.gcd a b = 1) :
    ((a : ℚ) / b).num = a ∧ (((a : ℚ) / b).den : ℤ) = b :=
  ⟨Rat.num_div_eq_of_coprime hb hcop, Rat.den_div_eq_of_coprime hb hcop⟩

/-- The conditional gcd reduction used by both the accumulation loop and the
merge loop sends any pair with positive denominator to the canonical
(num, den) pair of its rational value. -/
lemma reduceGcd_canon (a b : ℤ) (hb : 0 < b) :
    (if 1 < Int.gcd a b then ((a.fdiv (Int.gcd a b), b.fdiv (Int.gcd a b)) : ℤ × ℤ)
     else (a, b)) = (((a : ℚ) / b).num, (((a : ℚ) / b).den : ℤ)) := by
  have hg0 : Int.gcd a b ≠ 0 := by
    intro h
    rw [Int.gcd_eq_zero_iff] at h
    exact absurd h.2 (ne_of_gt hb)
  have hgpos : (0 : ℤ) < (Int.gcd a b : ℤ) := by exact_mod_cast Nat.pos_of_ne_zero hg0
  by_cases hg : 1 < Int.gcd a b
  · rw [if_pos hg]
    obtain ⟨a', ha'⟩ : (Int.gcd a b : ℤ) ∣ a := Int.gcd_dvd_left
    obtain ⟨b', hb'⟩ : (Int.gcd a b : ℤ) ∣ b := Int.gcd_dvd_right
    have hdva : (Int.gcd a b : ℤ) ∣ a := ⟨a', ha'⟩
    have hdvb : (Int.gcd a b : ℤ) ∣ b := ⟨b', hb'⟩
    have hcop0 := @Int.gcd_div_gcd_div_gcd a b (Nat.pos_of_ne_zero hg0)
    obtain ⟨g, hgeq⟩ : ∃ g : ℕ, Int.gcd a b = g := ⟨_, rfl⟩
    rw [hgeq] at ha' hb' hgpos hcop0 hdva hdvb ⊢
    have hgz : ((g : ℕ) : ℤ) ≠ 0 := ne_of_gt hgpos
    have heda : a / (g : ℤ) = a' :=
      Int.ediv_eq_of_eq_mul_left hgz (by rw [mul_comm]; exact ha')
    have hedb : b / (g : ℤ) = b' :=
      Int.ediv_eq_of_eq_mul_left hgz (by rw [mul_comm]; exact hb')
    have hfa : a.fdiv (g : ℤ) = a' := by
      rw [Int.fdiv_eq_ediv_of_dvd hdva]
      exact heda
    have hfb : b.fdiv (g : ℤ) = b' := by
      rw [Int.fdiv_eq_ediv_of_dvd hdvb]
      exact hedb
    have hb'pos : 0 < b' := by
      by_contra hneg
      push_neg at hneg
      have hle : ((g : ℕ) : ℤ) * b' ≤ 0 :=
        mul_nonpos_iff.mpr (Or.inl ⟨le_of_lt hgpos, hneg⟩)
      rw [← hb'] at hle
      omega
    rw [heda, hedb] at hcop0
    have hgQ0 : ((g : ℕ) : ℚ) ≠ 0 := by exact_mod_cast hgz
    have hvq : (a : ℚ) / b = (a' : ℚ) / b' := by
      rw [ha', hb']
      push_cast
      rw [mul_div_mul_left _ _ hgQ0]
    rw [hfa, hfb, hvq]
    have h2 := canon_pair_num_den a' b' hb'pos hcop0
    rw [h2.1, h2.2]
  · rw [if_neg hg]
    have hcop : Int.gcd a b = 1 := by omega
    have h2 := canon_pair_num_den a b hb hcop
    rw [h2.1, h2.2]

/-- A merge step on pairs with positive denominators produces exactly the
canonical pair of the sum of the two values. -/
lemma mergeStep_eq_canon (S r : ℤ × ℤ) (hS : 0 < S.2) (hr : 0 < r.2) :
    mergeStep S r = ((pairVal S + pairVal r).num, ((pairVal S + pairVal r).den : ℤ)) := by
  have hb : 0 < S.2 * r.2 := mul_pos hS hr
  have hS0 : (S.2 : ℚ) ≠ 0 := Int.cast_ne_zero.mpr (ne_of_gt hS)
  have hr0 : (r.2 : ℚ) ≠ 0 := Int.cast_ne_zero.mpr (ne_of_gt hr)
  have hval : ((S.1 * r.2 + r.1 * S.2 : ℤ) : ℚ) / ((S.2 * r.2 : ℤ) : ℚ) =
      pairVal S + pairVal r := by
    unfold pairVal
    push_cast
    rw [div_add_div _ _ hS0 hr0]
    ring_nf
  show (if 1 < Int.gcd (S.1 * r.2 + r.1 * S.2) (S.2 * r.2) then
      (((S.1 * r.2 + r.1 * S.2).fdiv (Int.gcd (S.1 * r.2 + r.1 * S.2) (S.2 * r.2)),
        (S.2 * r.2).fdiv (Int.gcd (S.1 * r.2 + r.1 * S.2) (S.2 * r.2))) : ℤ × ℤ)
    else (S.1 * r.2 + r.1 * S.2, S.2 * r.2)) = _
  rw [reduceGcd_canon _ _ hb, hval]

/-- The canonical pair of a rational evaluates back to that rational. -/
lemma pairVal_canon (q : ℚ) : pairVal (q.num, (q.den : ℤ)) = q := by
  unfold pairVal
  push_cast
  exact Rat.num_div_den q

/-- Folding merge steps from a canonical accumulator over pairs with
positive denominators yields the canonical pair of the total sum. -/
lemma foldl_mergeStep_canon :
    ∀ (l : List (ℤ × ℤ)) (q : ℚ), (∀ p ∈ l, 0 < p.2) →
      l.foldl mergeStep (q.num, (q.den : ℤ)) =
        ((q + (l.map pairVal).sum).num, ((q + (l.map pairVal).sum).den : ℤ)) := by
  intro l
  induction l with
  | nil => intro q _; simp
  | cons p rest ih =>
    intro q hpos
    have hq2 : (0 : ℤ) < (q.num, (q.den : ℤ)).2 := by
      show (0 : ℤ) < (q.den : ℤ)
      exact_mod_cast q.pos
    have hp2 : 0 < p.2 := hpos p (List.mem_cons_self _ _)
    rw [List.foldl_cons, mergeStep_eq_canon _ _ hq2 hp2, pairVal_canon,
      ih (q + pairVal p) (fun x hx => hpos x (List.mem_cons_of_mem _ hx))]
    rw [List.map_cons, List.sum_cons, add_assoc]

/-- The merge fold over at least two chunk results is the canonical pair of
the exact sum of all the chunk values. -/
lemma mergeFold_canon (a b : ℤ × ℤ) (rest : List (ℤ × ℤ))
    (hpos : ∀ p ∈ a :: b :: rest, 0 < p.2) :
    mergeFold (a :: b :: rest) =
      some ((((a :: b :: rest).map pairVal).sum.num,
        ((((a :: b :: rest).map pairVal).sum.den : ℤ)))) := by
  have ha : 0 < a.2 := hpos a (by simp)
  have hb : 0 < b.2 := hpos b (by simp)
  show some ((b :: rest).foldl mergeStep a) = _
  rw [List.foldl_cons, mergeStep_eq_canon a b ha hb,
    foldl_mergeStep_canon rest (pairVal a + pairVal b)
      (fun x hx => hpos x (by simp [hx]))]
  rw [List.map_cons, List.map_cons, List.sum_cons, List.sum_cons, add_assoc]

/-- C6: the merge fold is invariant under permutation of the chunk results:
for every list of per-chunk rationals (pairs with positive denominator, the
`Rational` invariant), folding in any order yields the identical final pair. -/
theorem mergeFold_perm_invariant (l l' : List (ℤ × ℤ)) (hperm : l.Perm l')
    (hpos : ∀ p ∈ l, 0 < p.2) : mergeFold l = mergeFold l' := by
  have hpos' : ∀ p ∈ l', 0 < p.2 := fun p hp => hpos p (hperm.mem_iff.mpr hp)
  cases l with
  | nil => rw [← hperm.nil_eq]
  | cons a rest =>
    cases rest with
    | nil =>
      cases l' with
      | nil => exact absurd hperm.length_eq (by simp)
      | cons a' rest' =>
        cases rest' with
        | cons b' rest2' => exact absurd hperm.length_eq (by simp)
        | nil =>
          have ha : a = a' := by
            have := hperm.mem_iff.mp (List.mem_singleton_self a)
            simpa using this
          rw [ha]
    | cons b rest2 =>
      cases l' with
      | nil => exact absurd hperm.length_eq (by simp)
      | cons a' rest' =>
        cases rest' with
        | nil => exact absurd hperm.length_eq (by simp)
        | cons b' rest2' =>
          rw [mergeFold_canon a b rest2 hpos, mergeFold_canon a' b' rest2' hpos',
            (hperm.map pairVal).sum_eq]

/-- C6 witness: permutation invariance at the concrete lists
`[(1, 2), (1, 3), (1, 6)]` and `[(1, 6), (1, 2), (1, 3)]`. -/
theorem mergeFold_perm_invariant_witness :
    mergeFold [((1 : ℤ), (2 : ℤ)), (1, 3), (1, 6)] = mergeFold [(1, 6), (1, 2), (1, 3)] :=
  mergeFold_perm_invariant _ _ (by decide) (by decide)

/-! ## C1 and C10: exactness of `compute_pi_terms` -/

/-- The canonical pair of a rational has positive denominator and is in
lowest terms. -/
lemma canon_pos_coprime (q : ℚ) :
    (0 : ℤ) < (q.den : ℤ) ∧ Int.gcd q.num (q.den : ℤ) = 1 := by
  refine ⟨by exact_mod_cast q.pos, ?_⟩
  show q.num.natAbs.gcd (Int.natAbs (q.den : ℤ)) = 1
  rw [Int.natAbs_ofNat]
  exact q.reduced

/-- Invariant of the `compute_pi_terms` loop after processing index `k` with
partial sum `v`: the recurrence fields hold the factorial-family values at
`k`, and the running total is the canonical reduced pair of `v`. -/
def StateOK (k : ℕ) (v : ℚ) (s : ChudState) : Prop :=
  s.fact_6k = (6 * k).factorial ∧
  s.fact_3k = (3 * k).factorial ∧
  s.fact_k_cubed = k.factorial ^ 3 ∧
  s.C_power = Cchud ^ k ∧
  s.linear_term = 545140134 * k + 13591409 ∧
  (s.total_num, s.total_den) = (v.num, (v.den : ℤ))

lemma initState_ok (start : ℕ) : StateOK start 0 (initState start) := by
  unfold StateOK initState
  by_cases h : start = 0
  · subst h
    norm_num [Cchud, Nat.factorial]
  · rw [if_neg h]
    norm_num

/-- The term built by the loop body from a state satisfying the invariant is
exactly the `k`-th Chudnovsky term of the specification. -/
lemma term_value (k : ℕ) (v : ℚ) (s : ChudState) (hs : StateOK k v s) :
    (((if k % 2 = 0 then (1 : ℤ) else -1) * s.fact_6k * s.linear_term : ℤ) : ℚ) /
      (((s.fact_3k : ℤ) * (s.fact_k_cubed : ℤ) * (s.C_power : ℤ) : ℤ) : ℚ) = chudTerm k := by
  obtain ⟨h6, h3, hkc, hC, hlin, -⟩ := hs
  rw [h6, h3, hkc, hC, hlin]
  unfold chudTerm Cchud
  by_cases hk : k % 2 = 0
  · have hev : (-1 : ℚ) ^ k = 1 := Even.neg_one_pow (Nat.even_iff.mpr hk)
    rw [if_pos hk, hev]
    push_cast
    ring
  · have hodd : (-1 : ℚ) ^ k = -1 :=
      Odd.neg_one_pow (Nat.odd_iff.mpr (by omega))
    rw [if_neg hk, hodd]
    push_cast
    ring

/-- Running one accumulation step from a state satisfying the invariant
preserves the recurrence fields and adds the `k`-th term to the canonical
running total. -/
lemma accumulate_ok (k : ℕ) (v : ℚ) (s : ChudState) (hs : StateOK k v s) :
    StateOK k (v + chudTerm k) (accumulate k s) := by
  obtain ⟨h6, h3, hkc, hC, hlin, htot⟩ := hs
  have htn : s.total_num = v.num := (Prod.mk.injEq _ _ _ _).mp htot |>.1
  have htd : s.total_den = (v.den : ℤ) := (Prod.mk.injEq _ _ _ _).mp htot |>.2
  have hf1 : (s.fact_6k : ℤ) ≠ 0 := by
    rw [h6]; exact_mod_cast (Nat.factorial_pos _).ne'
  have hf2 : (s.linear_term : ℤ) ≠ 0 := by
    rw [hlin]; exact_mod_cast (by omega : 545140134 * k + 13591409 ≠ 0)
  have hN : ((if k % 2 = 0 then (1 : ℤ) else -1) * s.fact_6k * s.linear_term : ℤ) ≠ 0 := by
    by_cases hk : k % 2 = 0
    · rw [if_pos hk, one_mul]; exact mul_ne_zero hf1 hf2
    · rw [if_neg hk]
      exact mul_ne_zero (mul_ne_zero (by norm_num) hf1) hf2
  have hD : (0 : ℤ) < (s.fact_3k : ℤ) * (s.fact_k_cubed : ℤ) * (s.C_power : ℤ) := by
    rw [h3, hkc, hC]
    have g3 : 0 < (3 * k).factorial * (k.factorial ^ 3) * (Cchud ^ k) := by
      have : 0 < Cchud := by unfold Cchud; positivity
      positivity
    exact_mod_cast g3
  have htdpos : 0 < s.total_den := by rw [htd]; exact_mod_cast v.pos
  have hndpos : 0 < s.total_den * ((s.fact_3k : ℤ) * (s.fact_k_cubed : ℤ) * (s.C_power : ℤ)) :=
    mul_pos htdpos hD
  have hfields : (accumulate k s).fact_6k = s.fact_6k ∧
      (accumulate k s).fact_3k = s.fact_3k ∧
      (accumulate k s).fact_k_cubed = s.fact_k_cubed ∧
      (accumulate k s).C_power = s.C_power ∧
      (accumulate k s).linear_term = s.linear_term := by
    simp only [accumulate]
    rw [if_pos hN]
    split <;> split <;> exact ⟨rfl, rfl, rfl, rfl, rfl⟩
  have hpair : ((accumulate k s).total_num, (accumulate k s).total_den) =
      (if 1 < Int.gcd
            (s.total_num * ((s.fact_3k : ℤ) * (s.fact_k_cubed : ℤ) * (s.C_power : ℤ)) +
              ((if k % 2 = 0 then (1 : ℤ) else -1) * s.fact_6k * s.linear_term) * s.total_den)
            (s.total_den * ((s.fact_3k : ℤ) * (s.fact_k_cubed : ℤ) * (s.C_power : ℤ))) then
        ((s.total_num * ((s.fact_3k : ℤ) * (s.fact_k_cubed : ℤ) * (s.C_power : ℤ)) +
            ((if k % 2 = 0 then (1 : ℤ) else -1) * s.fact_6k * s.linear_term) * s.total_den).fdiv
          (Int.gcd
            (s.total_num * ((s.fact_3k : ℤ) * (s.fact_k_cubed : ℤ) * (s.C_power : ℤ)) +
              ((if k % 2 = 0 then (1 : ℤ) else -1) * s.fact_6k * s.linear_term) * s.total_den)
            (s.total_den * ((s.fact_3k : ℤ) * (s.fact_k_cubed : ℤ) * (s.C_power : ℤ)))),
         (s.total_den * ((s.fact_3k : ℤ) * (s.fact_k_cubed : ℤ) * (s.C_power : ℤ))).fdiv
          (Int.gcd
            (s.total_num * ((s.fact_3k : ℤ) * (s.fact_k_cubed : ℤ) * (s.C_power : ℤ)) +
              ((if k % 2 = 0 then (1 : ℤ) else -1) * s.fact_6k * s.linear_term) * s.total_den)
            (s.total_den * ((s.fact_3k : ℤ) * (s.fact_k_cubed : ℤ) * (s.C_power : ℤ)))))
      else
        (s.total_num * ((s.fact_3k : ℤ) * (s.fact_k_cubed : ℤ) * (s.C_power : ℤ)) +
            ((if k % 2 = 0 then (1 : ℤ) else -1) * s.fact_6k * s.linear_term) * s.total_den,
          s.total_den * ((s.fact_3k : ℤ) * (s.fact_k_cubed : ℤ) * (s.C_power : ℤ)))) := by
    simp only [accumulate]
    rw [if_pos hN]
    split <;> split <;> rfl
  have hval : ((s.total_num * ((s.fact_3k : ℤ) * (s.fact_k_cubed : ℤ) * (s.C_power : ℤ)) +
        ((if k % 2 = 0 then (1 : ℤ) else -1) * s.fact_6k * s.linear_term) * s.total_den : ℤ) : ℚ) /
      ((s.total_den * ((s.fact_3k : ℤ) * (s.fact_k_cubed : ℤ) * (s.C_power : ℤ)) : ℤ) : ℚ) =
      v + chudTerm k := by
    have hterm := term_value k v s ⟨h6, h3, hkc, hC, hlin, htot⟩
    have htdQ : ((s.total_den : ℤ) : ℚ) ≠ 0 := by
      exact_mod_cast ne_of_gt htdpos
    have hDQ : (((s.fact_3k : ℤ) * (s.fact_k_cubed : ℤ) * (s.C_power : ℤ) : ℤ) : ℚ) ≠ 0 := by
      exact_mod_cast ne_of_gt hD
    rw [← hterm]
    have hv : v = ((s.total_num : ℤ) : ℚ) / ((s.total_den : ℤ) : ℚ) := by
      rw [htn, htd]
      exact_mod_cast (Rat.num_div_den v).symm
    rw [hv, div_add_div _ _ htdQ hDQ]
    push_cast
    ring_nf
  refine ⟨hfields.1.trans h6, hfields.2.1.trans h3, hfields.2.2.1.trans hkc,
    hfields.2.2.2.1.trans hC, hfields.2.2.2.2.trans hlin, ?_⟩
  rw [hpair, reduceGcd_canon _ _ hndpos, hval]

lemma factorial_six_step (m : ℕ) : (m + 6).factorial =
    (m + 6) * (m + 5) * (m + 4) * (m + 3) * (m + 2) * (m + 1) * m.factorial := by
  rw [show m + 6 = m + 5 + 1 from rfl, Nat.factorial_succ,
    show m + 5 = m + 4 + 1 from rfl, Nat.factorial_succ,
    show m + 4 = m + 3 + 1 from rfl, Nat.factorial_succ,
    show m + 3 = m + 2 + 1 from rfl, Nat.factorial_succ,
    show m + 2 = m + 1 + 1 from rfl, Nat.factorial_succ,
    Nat.factorial_succ]
  ring

lemma factorial_three_step (m : ℕ) : (m + 3).factorial =
    (m + 3) * (m + 2) * (m + 1) * m.factorial := by
  rw [show m + 3 = m + 2 + 1 from rfl, Nat.factorial_succ,
    show m + 2 = m + 1 + 1 from rfl, Nat.factorial_succ, Nat.factorial_succ]
  ring

/-- The incremental update at index `k + 1` carries the recurrence fields
from their values at `k` to their values at `k + 1` and leaves the running
total untouched. -/
lemma updateState_ok (k : ℕ) (v : ℚ) (s : ChudState) (hs : StateOK k v s) :
    StateOK (k + 1) v (updateState (k + 1) s) := by
  obtain ⟨h6, h3, hkc, hC, hlin, htot⟩ := hs
  refine ⟨?_, ?_, ?_, ?_, ?_, htot⟩
  · show (List.range' (6 * (k + 1) - 5) 6).foldl (· * ·) s.fact_6k = (6 * (k + 1)).factorial
    rw [show 6 * (k + 1) - 5 = 6 * k + 1 by omega, h6,
      show 6 * (k + 1) = 6 * k + 6 by ring, factorial_six_step]
    simp [List.range'_succ]
    ring
  · show (List.range' (3 * (k + 1) - 2) 3).foldl (· * ·) s.fact_3k = (3 * (k + 1)).factorial
    rw [show 3 * (k + 1) - 2 = 3 * k + 1 by omega, h3,
      show 3 * (k + 1) = 3 * k + 3 by ring, factorial_three_step]
    simp [List.range'_succ]
    ring
  · show s.fact_k_cubed * (k + 1) ^ 3 = (k + 1).factorial ^ 3
    rw [hkc, Nat.factorial_succ]
    ring
  · show s.C_power * Cchud = Cchud ^ (k + 1)
    rw [hC, pow_succ]
  · show s.linear_term + 545140134 = 545140134 * (k + 1) + 13591409
    rw [hlin]
    ring

/-- Loop invariant carried along the tail of the iteration: processing
indices `k+1, …, k+n` from a good state at `k` adds the corresponding terms
to the canonical running total. -/
lemma piLoop_cons (start k : ℕ) (ks : List ℕ) (s : ChudState) :
    piLoop start (k :: ks) s =
      piLoop start ks (accumulate k (if start < k then updateState k s else s)) := rfl

lemma piLoop_tail (start : ℕ) :
    ∀ (n k : ℕ) (v : ℚ) (s : ChudState), start ≤ k → StateOK k v s →
      StateOK (k + n) (v + ∑ i ∈ Finset.range n, chudTerm (k + 1 + i))
        (piLoop start (List.range' (k + 1) n) s) := by
  intro n
  induction n with
  | zero =>
    intro k v s _ hs
    simpa using hs
  | succ m ih =>
    intro k v s hk hs
    rw [List.range'_succ, piLoop_cons, if_pos (Nat.lt_succ_of_le hk)]
    have h3 := ih (k + 1) (v + chudTerm (k + 1))
      (accumulate (k + 1) (updateState (k + 1) s))
      (le_trans hk (Nat.le_succ k))
      (accumulate_ok (k + 1) v _ (updateState_ok k v s hs))
    have hsum : ∑ i ∈ Finset.range (m + 1), chudTerm (k + 1 + i) =
        chudTerm (k + 1) + ∑ i ∈ Finset.range m, chudTerm (k + 1 + 1 + i) := by
      rw [Finset.sum_range_succ']
      have hcong : ∑ x ∈ Finset.range m, chudTerm (k + 1 + (x + 1)) =
          ∑ x ∈ Finset.range m, chudTerm (k + 1 + 1 + x) :=
        Finset.sum_congr rfl (fun x _ => by
          rw [show k + 1 + (x + 1) = k + 1 + 1 + x by omega])
      rw [hcong, Nat.add_zero]
      exact add_comm _ _
    rw [show k + (m + 1) = k + 1 + m by omega, hsum, ← add_assoc]
    exact h3

/-- On a nonempty range, `compute_pi_terms` returns exactly the canonical
reduced pair of the sum of the Chudnovsky terms over the range. -/
lemma compute_pi_terms_canon (start endIdx : ℕ) (h : start ≤ endIdx) :
    compute_pi_terms start endIdx =
      ((∑ k ∈ Finset.Icc start endIdx, chudTerm k).num,
        ((∑ k ∈ Finset.Icc start endIdx, chudTerm k).den : ℤ)) := by
  obtain ⟨n, rfl⟩ : ∃ n, endIdx = start + n := ⟨endIdx - start, by omega⟩
  show ((piLoop start (List.range' start (start + n + 1 - start)) (initState start)).total_num,
    (piLoop start (List.range' start (start + n + 1 - start)) (initState start)).total_den) = _
  rw [show start + n + 1 - start = n + 1 by omega, List.range'_succ, piLoop_cons,
    if_neg (lt_irrefl start)]
  have h2 := piLoop_tail start n start (0 + chudTerm start)
    (accumulate start (initState start)) (le_refl start)
    (accumulate_ok start 0 _ (initState_ok start))
  have hq : (0 : ℚ) + chudTerm start + ∑ i ∈ Finset.range n, chudTerm (start + 1 + i) =
      ∑ k ∈ Finset.Icc start (start + n), chudTerm k := by
    rw [zero_add, ← Nat.Ico_succ_right, Finset.sum_Ico_eq_sum_range,
      show start + n + 1 - start = n + 1 by omega, Finset.sum_range_succ']
    have hcong : ∑ x ∈ Finset.range n, chudTerm (start + (x + 1)) =
        ∑ x ∈ Finset.range n, chudTerm (start + 1 + x) :=
      Finset.sum_congr rfl (fun x _ => by
        rw [show start + (x + 1) = start + 1 + x by omega])
    rw [hcong, Nat.add_zero]
    exact add_comm _ _
  rw [← hq]
  exact h2.2.2.2.2.2

/-- C1: for every range with `start ≤ end`, `compute_pi_terms` returns a
pair with positive denominator whose rational value is exactly
`Σ_{k=start}^{end} term(k)` from the specification — so the incremental
recurrence computes the same value as evaluating each term from scratch. -/
theorem compute_pi_terms_exact (start endIdx : ℕ) (h : start ≤ endIdx) :
    0 < (compute_pi_terms start endIdx).2 ∧
    ((compute_pi_terms start endIdx).1 : ℚ) / ((compute_pi_terms start endIdx).2 : ℚ) =
      ∑ k ∈ Finset.Icc start endIdx, chudTerm k := by
  rw [compute_pi_terms_canon start endIdx h]
  refine ⟨(canon_pos_coprime _).1, ?_⟩
  exact_mod_cast Rat.num_div_den _

/-- C1 witness: the statement at the concrete range `start = 0, end = 1`. -/
theorem compute_pi_terms_exact_witness :
    (0 : ℕ) ≤ 1 ∧
    (0 < (compute_pi_terms 0 1).2 ∧
      ((compute_pi_terms 0 1).1 : ℚ) / ((compute_pi_terms 0 1).2 : ℚ) =
        ∑ k ∈ Finset.Icc 0 1, chudTerm k) :=
  ⟨by decide, compute_pi_terms_exact 0 1 (by decide)⟩

/-- After one accumulation step from any state with positive bookkeeping
quantities and positive running denominator, the running fraction is in
lowest terms with positive denominator. -/
lemma accumulate_invariant (k : ℕ) (s : ChudState)
    (hden : 0 < s.total_den) (h3 : 0 < s.fact_3k) (hkc : 0 < s.fact_k_cubed)
    (hC : 0 < s.C_power) (h6 : 0 < s.fact_6k) (hlin : 0 < s.linear_term) :
    0 < (accumulate k s).total_den ∧
      Int.gcd (accumulate k s).total_num (accumulate k s).total_den = 1 := by
  have hf1 : (s.fact_6k : ℤ) ≠ 0 := by exact_mod_cast h6.ne'
  have hf2 : (s.linear_term : ℤ) ≠ 0 := by exact_mod_cast hlin.ne'
  have hN : ((if k % 2 = 0 then (1 : ℤ) else -1) * s.fact_6k * s.linear_term : ℤ) ≠ 0 := by
    by_cases hk : k % 2 = 0
    · rw [if_pos hk, one_mul]; exact mul_ne_zero hf1 hf2
    · rw [if_neg hk]; exact mul_ne_zero (mul_ne_zero (by norm_num) hf1) hf2
  have hD : (0 : ℤ) < (s.fact_3k : ℤ) * (s.fact_k_cubed : ℤ) * (s.C_power : ℤ) := by
    have hn : 0 < s.fact_3k * s.fact_k_cubed * s.C_power := by positivity
    exact_mod_cast hn
  have hndpos : 0 < s.total_den * ((s.fact_3k : ℤ) * (s.fact_k_cubed : ℤ) * (s.C_power : ℤ)) :=
    mul_pos hden hD
  have hpair : ((accumulate k s).total_num, (accumulate k s).total_den) =
      (if 1 < Int.gcd
            (s.total_num * ((s.fact_3k : ℤ) * (s.fact_k_cubed : ℤ) * (s.C_power : ℤ)) +
              ((if k % 2 = 0 then (1 : ℤ) else -1) * s.fact_6k * s.linear_term) * s.total_den)
            (s.total_den * ((s.fact_3k : ℤ) * (s.fact_k_cubed : ℤ) * (s.C_power : ℤ))) then
        ((s.total_num * ((s.fact_3k : ℤ) * (s.fact_k_cubed : ℤ) * (s.C_power : ℤ)) +
            ((if k % 2 = 0 then (1 : ℤ) else -1) * s.fact_6k * s.linear_term) * s.total_den).fdiv
          (Int.gcd
            (s.total_num * ((s.fact_3k : ℤ) * (s.fact_k_cubed : ℤ) * (s.C_power : ℤ)) +
              ((if k % 2 = 0 then (1 : ℤ) else -1) * s.fact_6k * s.linear_term) * s.total_den)
            (s.total_den * ((s.fact_3k : ℤ) * (s.fact_k_cubed : ℤ) * (s.C_power : ℤ)))),
         (s.total_den * ((s.fact_3k : ℤ) * (s.fact_k_cubed : ℤ) * (s.C_power : ℤ))).fdiv
          (Int.gcd
            (s.total_num * ((s.fact_3k : ℤ) * (s.fact_k_cubed : ℤ) * (s.C_power : ℤ)) +
              ((if k % 2 = 0 then (1 : ℤ) else -1) * s.fact_6k * s.linear_term) * s.total_den)
            (s.total_den * ((s.fact_3k : ℤ) * (s.fact_k_cubed : ℤ) * (s.C_power : ℤ)))))
      else
        (s.total_num * ((s.fact_3k : ℤ) * (s.fact_k_cubed : ℤ) * (s.C_power : ℤ)) +
            ((if k % 2 = 0 then (1 : ℤ) else -1) * s.fact_6k * s.linear_term) * s.total_den,
          s.total_den * ((s.fact_3k : ℤ) * (s.fact_k_cubed : ℤ) * (s.C_power : ℤ)))) := by
    simp only [accumulate]
    rw [if_pos hN]
    split <;> split <;> rfl
  rw [reduceGcd_canon _ _ hndpos, Prod.mk.injEq] at hpair
  rw [hpair.1, hpair.2]
  exact canon_pos_coprime _

/-- C10: every fraction the code maintains is in lowest terms with positive
denominator: after every accumulation step of `compute_pi_terms` (from any
state whose bookkeeping quantities are positive), after every merge step of
the fold in `main` (on pairs with positive denominators), and in the pair
returned by `compute_pi_terms` on any range. -/
theorem rational_invariants :
    (∀ (k : ℕ) (s : ChudState), 0 < s.total_den → 0 < s.fact_3k → 0 < s.fact_k_cubed →
      0 < s.C_power → 0 < s.fact_6k → 0 < s.linear_term →
      0 < (accumulate k s).total_den ∧
        Int.gcd (accumulate k s).total_num (accumulate k s).total_den = 1) ∧
    (∀ S r : ℤ × ℤ, 0 < S.2 → 0 < r.2 →
      0 < (mergeStep S r).2 ∧ Int.gcd (mergeStep S r).1 (mergeStep S r).2 = 1) ∧
    (∀ start endIdx : ℕ, 0 < (compute_pi_terms start endIdx).2 ∧
      Int.gcd (compute_pi_terms start endIdx).1 (compute_pi_terms start endIdx).2 = 1) := by
  refine ⟨accumulate_invariant, ?_, ?_⟩
  · intro S r hS hr
    rw [mergeStep_eq_canon S r hS hr]
    exact canon_pos_coprime _
  · intro start endIdx
    rcases le_or_lt start endIdx with hle | hlt
    · rw [compute_pi_terms_canon start endIdx hle]
      exact canon_pos_coprime _
    · have he : compute_pi_terms start endIdx = (0, 1) := by
        show ((piLoop start (List.range' start (endIdx + 1 - start)) (initState start)).total_num,
          (piLoop start (List.range' start (endIdx + 1 - start)) (initState start)).total_den) =
            (0, 1)
        rw [show endIdx + 1 - start = 0 by omega]
        show ((initState start).total_num, (initState start).total_den) = (0, 1)
        unfold initState
        split <;> rfl
      rw [he]
      exact ⟨one_pos, by decide⟩

/-- C10 witness: the accumulation-step invariant at a concrete state (the
`k = 0` base state) and the merge-step invariant at the concrete pairs
`(1, 2)` and `(1, 3)`. -/
theorem rational_invariants_witness :
    (0 < (accumulate 0 ⟨1, 1, 1, 1, 13591409, 0, 1⟩).total_den ∧
      Int.gcd (accumulate 0 ⟨1, 1, 1, 1, 13591409, 0, 1⟩).total_num
        (accumulate 0 ⟨1, 1, 1, 1, 13591409, 0, 1⟩).total_den = 1) ∧
    (0 < (mergeStep (1, 2) (1, 3)).2 ∧
      Int.gcd (mergeStep (1, 2) (1, 3)).1 (mergeStep (1, 2) (1, 3)).2 = 1) :=
  ⟨rational_invariants.1 0 ⟨1, 1, 1, 1, 13591409, 0, 1⟩ (by decide) (by decide) (by decide)
      (by decide) (by decide) (by decide),
    rational_invariants.2.1 (1, 2) (1, 3) (by decide) (by decide)⟩

/-! ## C3 and C7 (amended): convergence of the Newton iteration -/

lemma newtonLoop1_succ (n fuel x : ℕ) : newtonLoop1 n (fuel + 1) x =
    if x = 0 then .divZero
    else if x ≤ (x + n / x) / 2 then .ok x else newtonLoop1 n fuel ((x + n / x) / 2) := rfl

lemma newtonLoop2_succ (n fuel x : ℕ) : newtonLoop2 n (fuel + 1) x =
    if x = 0 then .divZero
    else if (x + n / x) / 2 = x then .ok x else newtonLoop2 n fuel ((x + n / x) / 2) := rfl

/-- One Newton step from any positive `x` lands at or above `√n`. -/
lemma newton_ge_sqrt (n x : ℕ) (hx : 1 ≤ x) : Nat.sqrt n ≤ (x + n / x) / 2 := by
  rcases Nat.lt_or_ge x (2 * Nat.sqrt n) with hx2 | hx2
  · have hs0 : 0 < Nat.sqrt n := by omega
    have hAM := two_mul_le_add_sq (Nat.sqrt n) x
    have he1 : 2 * Nat.sqrt n * x = 2 * (Nat.sqrt n * x) := by ring
    have he2 : Nat.sqrt n ^ 2 = Nat.sqrt n * Nat.sqrt n := by ring
    have he3 : x ^ 2 = x * x := by ring
    have he4 : (2 * Nat.sqrt n - x) * x = 2 * Nat.sqrt n * x - x * x := Nat.sub_mul _ _ _
    have hsv : Nat.sqrt n * Nat.sqrt n ≤ n := Nat.sqrt_le n
    have hkey : (2 * Nat.sqrt n - x) * x ≤ n := by omega
    have hdiv : 2 * Nat.sqrt n - x ≤ n / x :=
      (Nat.le_div_iff_mul_le (by omega)).mpr hkey
    omega
  · have hq : (0 : ℕ) ≤ n / x := Nat.zero_le _
    omega

/-- One Newton step from any `x` strictly above `√n` strictly decreases. -/
lemma newton_lt_self (n x : ℕ) (hx : Nat.sqrt n < x) : (x + n / x) / 2 < x := by
  have h1 : n < (Nat.sqrt n + 1) * (Nat.sqrt n + 1) := Nat.lt_succ_sqrt n
  have h2 : (Nat.sqrt n + 1) * (Nat.sqrt n + 1) ≤ (Nat.sqrt n + 1) * x :=
    Nat.mul_le_mul_left _ hx
  have h3 : n / x < Nat.sqrt n + 1 :=
    (Nat.div_lt_iff_lt_mul (by omega)).mpr (by omega)
  omega

/-- When `n + 1` is not a perfect square, `√n` is a true fixed point of the
integer Newton step. -/
lemma newton_fixed (n : ℕ) (hn : 1 ≤ n)
    (hns : n + 1 ≠ (Nat.sqrt n + 1) * (Nat.sqrt n + 1)) :
    (Nat.sqrt n + n / Nat.sqrt n) / 2 = Nat.sqrt n := by
  have hs0 : 0 < Nat.sqrt n := Nat.sqrt_pos.mpr hn
  have hlow : Nat.sqrt n ≤ n / Nat.sqrt n :=
    (Nat.le_div_iff_mul_le hs0).mpr (Nat.sqrt_le n)
  have h1 : n < (Nat.sqrt n + 1) * (Nat.sqrt n + 1) := Nat.lt_succ_sqrt n
  have he1 : (Nat.sqrt n + 1) * (Nat.sqrt n + 1) =
      Nat.sqrt n * Nat.sqrt n + 2 * Nat.sqrt n + 1 := by ring
  have he2 : (Nat.sqrt n + 2) * Nat.sqrt n = Nat.sqrt n * Nat.sqrt n + 2 * Nat.sqrt n := by
    ring
  have hhigh : n / Nat.sqrt n < Nat.sqrt n + 2 :=
    (Nat.div_lt_iff_lt_mul hs0).mpr (by omega)
  omega

/-- From any start at or above `√n` the fixed-point loop reaches `√n`,
provided `√n` really is a fixed point; `x + 1` fuel always suffices. -/
lemma newtonLoop2_converges (n : ℕ) (hn : 1 ≤ n)
    (hfix : (Nat.sqrt n + n / Nat.sqrt n) / 2 = Nat.sqrt n) :
    ∀ x fuel, Nat.sqrt n ≤ x → x + 1 ≤ fuel → newtonLoop2 n fuel x = .ok (Nat.sqrt n) := by
  intro x
  induction x using Nat.strong_induction_on with
  | _ x ih =>
    intro fuel hsx hfuel
    obtain ⟨f, rfl⟩ : ∃ f, fuel = f + 1 := ⟨fuel - 1, by omega⟩
    have hs0 : 0 < Nat.sqrt n := Nat.sqrt_pos.mpr hn
    have hx0 : x ≠ 0 := by omega
    rw [newtonLoop2_succ, if_neg hx0]
    by_cases hyx : (x + n / x) / 2 = x
    · rw [if_pos hyx]
      have hnlt : ¬ Nat.sqrt n < x := fun hlt => absurd hyx (ne_of_lt (newton_lt_self n x hlt))
      have hxs : x = Nat.sqrt n := by omega
      rw [hxs]
    · rw [if_neg hyx]
      have hxs : Nat.sqrt n < x := by
        rcases lt_or_eq_of_le hsx with h | h
        · exact h
        · exact absurd (h ▸ hfix) hyx
      have hy_lt : (x + n / x) / 2 < x := newton_lt_self n x hxs
      have hy_ge : Nat.sqrt n ≤ (x + n / x) / 2 := newton_ge_sqrt n x (by omega)
      exact ih _ hy_lt f hy_ge (by omega)

/-- The initial guess of the code is always at least `√n` (and at least 1). -/
lemma sqrtInit_ge_sqrt (n : ℕ) : Nat.sqrt n ≤ sqrtInit n ∧ 1 ≤ sqrtInit n := by
  unfold sqrtInit
  by_cases h : n / 2 = 0
  · rw [if_pos h]
    have hn1 : n ≤ 1 := by omega
    have : Nat.sqrt n ≤ Nat.sqrt 1 := Nat.sqrt_le_sqrt hn1
    simpa using this
  · rw [if_neg h]
    refine ⟨?_, by omega⟩
    have hq : 1 ≤ n / 2 := by omega
    have hn2 : 2 ≤ n := by omega
    have hqq : n / 2 ≤ n / 2 * (n / 2) := Nat.le_mul_of_pos_left _ hq
    have hdm : 2 * (n / 2) + n % 2 = n := Nat.div_add_mod n 2
    have hm2 : n % 2 < 2 := Nat.mod_lt n (by omega)
    have hlt : n < (n / 2 + 1) * (n / 2 + 1) := by
      have he : (n / 2 + 1) * (n / 2 + 1) = n / 2 * (n / 2) + 2 * (n / 2) + 1 := by ring
      omega
    have := Nat.sqrt_lt.mpr hlt
    omega

/-- The first (unscaled) Newton loop terminates normally for every `n ≥ 1`
from every positive start, given fuel at least the start value. -/
lemma newtonLoop1_ok (n : ℕ) (hn : 1 ≤ n) :
    ∀ x fuel, 1 ≤ x → x ≤ fuel → ∃ r, newtonLoop1 n fuel x = .ok r := by
  intro x
  induction x using Nat.strong_induction_on with
  | _ x ih =>
    intro fuel hx1 hfuel
    obtain ⟨f, rfl⟩ : ∃ f, fuel = f + 1 := ⟨fuel - 1, by omega⟩
    rw [newtonLoop1_succ, if_neg (by omega : ¬ x = 0)]
    by_cases hxy : x ≤ (x + n / x) / 2
    · rw [if_pos hxy]
      exact ⟨x, rfl⟩
    · rw [if_neg hxy]
      have hylt : (x + n / x) / 2 < x := by omega
      have hy1 : 1 ≤ (x + n / x) / 2 := by
        rcases Nat.lt_or_ge x 2 with hx2 | hx2
        · have hx1' : x = 1 := by omega
          subst hx1'
          rw [Nat.div_one]
          omega
        · have hq0 : 0 ≤ n / x := Nat.zero_le _
          omega
      exact ih _ hylt f hy1 (by omega)

/-- C7 (amended): for every positive `n` and precision `p` such that
`n·10^(2p) + 1` is not a perfect square, the scaled Newton iteration started
from the code's initial guess terminates: it reaches a state `x` that one
more iteration leaves unchanged.  (When `n·10^(2p)+1` is a perfect square the
iteration cycles forever between `√(n·10^(2p))` and its successor, as the
counterexample at `n = 3, p = 0` shows.) -/
theorem scaled_iteration_terminates (n p : ℕ) (hn : 1 ≤ n)
    (hsq : ¬ ∃ m, n * 10 ^ (2 * p) + 1 = m * m) :
    ∃ fuel x, newtonLoop2 (n * 10 ^ (2 * p)) fuel (sqrtInit (n * 10 ^ (2 * p))) = .ok x ∧
      (x + n * 10 ^ (2 * p) / x) / 2 = x := by
  have hN0 : 0 < n * 10 ^ (2 * p) :=
    Nat.mul_pos (by omega) (pow_pos (by norm_num) _)
  have hN : 1 ≤ n * 10 ^ (2 * p) := hN0
  have hns : n * 10 ^ (2 * p) + 1 ≠
      (Nat.sqrt (n * 10 ^ (2 * p)) + 1) * (Nat.sqrt (n * 10 ^ (2 * p)) + 1) :=
    fun h => hsq ⟨Nat.sqrt (n * 10 ^ (2 * p)) + 1, h⟩
  have hfix := newton_fixed (n * 10 ^ (2 * p)) hN hns
  obtain ⟨hge, -⟩ := sqrtInit_ge_sqrt (n * 10 ^ (2 * p))
  exact ⟨sqrtInit (n * 10 ^ (2 * p)) + 1, Nat.sqrt (n * 10 ^ (2 * p)),
    newtonLoop2_converges _ hN hfix _ _ hge (le_refl _), hfix⟩

/-- C7 witness: the amended statement at the concrete input `n = 2, p = 0`
(where `n·10^0 + 1 = 3` is not a perfect square). -/
theorem scaled_iteration_terminates_witness :
    ((1 : ℕ) ≤ 2 ∧ ¬ ∃ m, 2 * 10 ^ (2 * 0) + 1 = m * m) ∧
    ∃ fuel x, newtonLoop2 (2 * 10 ^ (2 * 0)) fuel (sqrtInit (2 * 10 ^ (2 * 0))) = .ok x ∧
      (x + 2 * 10 ^ (2 * 0) / x) / 2 = x := by
  have hns : ¬ ∃ m, 2 * 10 ^ (2 * 0) + 1 = m * m := by
    rintro ⟨m, hm⟩
    norm_num at hm
    have hm3 : m ≤ 3 := by
      by_contra hc
      push_neg at hc
      have h16 : 4 * 4 ≤ m * m := Nat.mul_le_mul (by omega) (by omega)
      omega
    interval_cases m <;> omega
  exact ⟨⟨by decide, hns⟩, scaled_iteration_terminates 2 0 (by decide) hns⟩

/-- C3 (amended): for every positive `n` and precision `p` such that
`n·10^(2p) + 1` is not a perfect square, `high_precision_sqrt` returns a
value `x` with `x² ≤ n·10^(2p) < (x+1)²`, i.e. `x = floor(sqrt(n·10^(2p)))`.
(The perfect-square restriction is forced: at `n = 3, p = 0` the function
never returns.) -/
theorem high_precision_sqrt_correct (n p : ℕ) (hn : 1 ≤ n)
    (hsq : ¬ ∃ m, n * 10 ^ (2 * p) + 1 = m * m) :
    ∃ fuel1 fuel2 x, high_precision_sqrt n p fuel1 fuel2 = .ok x ∧
      x * x ≤ n * 10 ^ (2 * p) ∧ n * 10 ^ (2 * p) < (x + 1) * (x + 1) := by
  obtain ⟨hge1, hpos1⟩ := sqrtInit_ge_sqrt n
  obtain ⟨r, hr⟩ := newtonLoop1_ok n hn (sqrtInit n) (sqrtInit n) hpos1 (le_refl _)
  have hN0 : 0 < n * 10 ^ (2 * p) :=
    Nat.mul_pos (by omega) (pow_pos (by norm_num) _)
  have hN : 1 ≤ n * 10 ^ (2 * p) := hN0
  have hns : n * 10 ^ (2 * p) + 1 ≠
      (Nat.sqrt (n * 10 ^ (2 * p)) + 1) * (Nat.sqrt (n * 10 ^ (2 * p)) + 1) :=
    fun h => hsq ⟨Nat.sqrt (n * 10 ^ (2 * p)) + 1, h⟩
  have hfix := newton_fixed (n * 10 ^ (2 * p)) hN hns
  obtain ⟨hge2, -⟩ := sqrtInit_ge_sqrt (n * 10 ^ (2 * p))
  refine ⟨sqrtInit n, sqrtInit (n * 10 ^ (2 * p)) + 1, Nat.sqrt (n * 10 ^ (2 * p)), ?_, ?_, ?_⟩
  · unfold high_precision_sqrt
    rw [hr]
    exact newtonLoop2_converges _ hN hfix _ _ hge2 (le_refl _)
  · exact Nat.sqrt_le _
  · exact Nat.lt_succ_sqrt _

/-- C3 witness: the amended statement at the concrete input `n = 2, p = 0`. -/
theorem high_precision_sqrt_correct_witness :
    ((1 : ℕ) ≤ 2 ∧ ¬ ∃ m, 2 * 10 ^ (2 * 0) + 1 = m * m) ∧
    ∃ fuel1 fuel2 x, high_precision_sqrt 2 0 fuel1 fuel2 = .ok x ∧
      x * x ≤ 2 * 10 ^ (2 * 0) ∧ 2 * 10 ^ (2 * 0) < (x + 1) * (x + 1) := by
  have hns : ¬ ∃ m, 2 * 10 ^ (2 * 0) + 1 = m * m := by
    rintro ⟨m, hm⟩
    norm_num at hm
    have hm3 : m ≤ 3 := by
      by_contra hc
      push_neg at hc
      have h16 : 4 * 4 ≤ m * m := Nat.mul_le_mul (by omega) (by omega)
      omega
    interval_cases m <;> omega
  exact ⟨⟨by decide, hns⟩, high_precision_sqrt_correct 2 0 (by decide) hns⟩
